import Mathlib

/-!
Verification of the responsion-accentuum comparison engine.

Shallow embedding of the core comparison functions of the repository:
`canonical_sylls`, `metrically_responding_lines_polystrophic`,
`build_units_for_accent` / `do_mixed_single_double_polystrophic` (stats.py),
`get_contours_line`, `all_contours_line`, `_compatibility_line`,
`compatibility_canticum`, `compatibility_ratios_to_stats` (stats_comp.py),
and `autofix_responsion` (compile.py), together with the word-boundary
helpers `space_after` / `space_before` (utils/words.py).

XML `<syll>` elements are modelled as records of their attributes; Python
`Fraction` is modelled as `ℚ`; Python exceptions (`ValueError`,
`ZeroDivisionError`, `UnboundLocalError`, ...) are modelled with `Except`.
External linguistic classifiers from the `grc_utils` library (vowel and
accent character sets, enclitic/proclitic word lists, `normalize_word`)
are parameters of the embedding, collected in a `Cfg` record.
-/

namespace Responsio


/-- A `<syll>` element: the attribute bag produced by the markup compiler.
`weight` is the raw string attribute (`""` when absent), the three Boolean
flags model `attribute == "True"`, `text` is the syllable text and `tail`
the XML tail (both as character lists; an absent tail is `[]`). -/
structure Syll where
  weight : String := ""
  anceps : Bool := false
  resolution : Bool := false
  brevis_in_longo : Bool := false
  text : List Char := []
  tail : List Char := []
deriving DecidableEq, Repr

/-- External classifiers from `grc_utils`: per-character vowel / accent
membership, enclitic and proclitic word tests, and the composite
`any(ch in ACUTES for ch in normalize_word(text))` used by `has_acute`. -/
structure Cfg where
  vowel : Char → Bool
  acuteCirc : Char → Bool
  graveCh : Char → Bool
  encl : List Char → Bool
  procl : List Char → Bool
  hasAcuteNorm : List Char → Bool

/-- Python exception kinds surfaced by the embedded functions. -/
inductive PyErr where
  | unboundLocal
  | valueError
  | zeroDivision
  | typeError
  | statisticsError
deriving DecidableEq, Repr

/-- Error-propagating `map` over a list, mirroring a Python `for` loop that
raises at the first failing element. -/
def mapE (f : α → Except PyErr β) : List α → Except PyErr (List β)
  | [] => .ok []
  | x :: xs =>
    match f x with
    | .error e => .error e
    | .ok y =>
      match mapE f xs with
      | .error e => .error e
      | .ok ys => .ok (y :: ys)

/-! ## Canonical metrical normalization (`stats.py`, `canonical_sylls`) -/

/-- The single-syllable branch of `canonical_sylls` (steps (b), (d), (e)
of the source): `anceps` wins, then `brevis_in_longo` (as `"heavy"`),
otherwise the raw `weight` attribute, defaulting to `"light"` when it is
neither `"heavy"` nor `"light"`. -/
def syllableToken (s : Syll) : String :=
  if s.anceps then "anceps"
  else if s.brevis_in_longo then "heavy"
  else if s.weight = "heavy" ∨ s.weight = "light" then s.weight else "light"

/-- `canonical_sylls` from `stats.py`: scan left to right; a pair of
adjacent syllables both with `resolution="True"` becomes one `"heavy"`
token (consuming both), otherwise the current syllable emits its
`syllableToken`. -/
def canonical_sylls : List Syll → List String
  | [] => []
  | [s] => [syllableToken s]
  | s :: s2 :: rest =>
    if s.resolution && s2.resolution then
      "heavy" :: canonical_sylls rest
    else
      syllableToken s :: canonical_sylls (s2 :: rest)

/-! ## Polystrophic metrical responsion (`stats.py`) -/

/-- Length of the shortest member list: the truncation behaviour of
Python's `zip(*lists)` (`zip()` over no lists is empty). -/
def minZipLen : List (List α) → Nat
  | [] => 0
  | l :: rest => rest.foldl (fun m x => min m x.length) l.length

/-- `list(map(list, zip(*lists)))`: transpose truncated to the shortest
member. `dflt` is only read at indices below every member's length. -/
def transpose_zip (ls : List (List α)) (dflt : α) : List (List α) :=
  (List.range (minZipLen ls)).map (fun i => ls.map (fun l => l.getD i dflt))

/-- `metrically_responding_lines_polystrophic` from `stats.py`: canonical
lengths must be uniform, and every transposed position must hold at most
one distinct non-`"anceps"` token. -/
def metrically_responding_lines_polystrophic (strophes : List (List Syll)) : Bool :=
  let strophe_lines := strophes.map canonical_sylls
  let check1 := decide ((strophe_lines.map List.length).dedup.length = 1)
  let check2 := (transpose_zip strophe_lines "").all (fun syllables =>
    let non_anceps := syllables.filter (fun s => s ≠ "anceps")
    non_anceps.isEmpty || decide (non_anceps.dedup.length = 1))
  check1 && check2

/-- Sample syllable: one half of a resolved pair. -/
def resSyll : Syll := { resolution := true }

/-- Sample syllable: a plain heavy syllable. -/
def heavySyll : Syll := { weight := "heavy" }

/-- Sample syllable: an anceps syllable. -/
def ancSyll : Syll := { anceps := true }

/-- Sample syllable: a plain light syllable. -/
def lightSyll : Syll := { weight := "light" }

/-- A heavy, accented syllable (the classifier of the witness `Cfg`
treats the text `['A']` as acute-bearing). -/
def accHeavySyll : Syll := { weight := "heavy", text := ['A'] }

/-- Witness `Cfg`: no vowels, no contour accents, no clitics; the
normalized-acute test holds exactly of the text `['A']`. -/
def cfgAcuteA : Cfg :=
  { vowel := fun _ => false
    acuteCirc := fun _ => false
    graveCh := fun _ => false
    encl := fun _ => false
    procl := fun _ => false
    hasAcuteNorm := fun t => t = ['A'] }

/-! ## Accentual units (`stats.py`, `build_units_for_accent` and the
mixed single/double responder) -/

/-- One entry of the unit list built by `build_units_for_accent`: the
Python dict with keys `type`, `line_n`, `unit_ord` and either `syll`
(single) or `syll1`/`syll2` (double). Unused syllable slots keep their
defaults. -/
structure AUnit where
  utype : String := "single"
  line_n : String := ""
  unit_ord : Nat := 1
  syll : Syll := {}
  syll1 : Syll := {}
  syll2 : Syll := {}
deriving DecidableEq, Repr

/-- Worker for `build_units_for_accent`, carrying the 1-based ordinal. -/
def build_units_go (line_n : String) (ord : Nat) : List Syll → List AUnit
  | [] => []
  | [s] => [{ utype := "single", line_n := line_n, unit_ord := ord, syll := s }]
  | s :: s2 :: rest =>
    if s.resolution && s2.resolution then
      { utype := "double", line_n := line_n, unit_ord := ord, syll1 := s, syll2 := s2 }
        :: build_units_go line_n (ord + 1) rest
    else
      { utype := "single", line_n := line_n, unit_ord := ord, syll := s }
        :: build_units_go line_n (ord + 1) (s2 :: rest)

/-- `build_units_for_accent` from `stats.py`: adjacent resolution
syllables form one `double` unit, every other syllable a `single`; the
ordinal counts emitted units starting from 1. -/
def build_units_for_accent (line_n : String) (sylls : List Syll) : List AUnit :=
  build_units_go line_n 1 sylls

/-- `has_acute` from `stats.py` (the `normalize_word`/`ACUTES` test comes
from the external library and is a `Cfg` parameter). -/
def has_acute (cfg : Cfg) (s : Syll) : Bool := cfg.hasAcuteNorm s.text

/-- `is_heavy` from `stats.py`. -/
def is_heavy (s : Syll) : Bool := s.weight = "heavy"

/-- A recorded accent match: the Python dict mapping `(line_n, unit_ord)`
keys to matched syllable text, kept in insertion order. -/
def MatchGroup : Type := List ((String × Nat) × List Char)

/-- `do_mixed_single_double_polystrophic` from `stats.py`: only acute is
evaluated; if every single unit is heavy with an acute and every double
unit's second sub-syllable has an acute, one record per single×double
pair is appended, otherwise nothing. -/
def do_mixed_single_double_polystrophic (cfg : Cfg) (units : List AUnit) : List MatchGroup :=
  let single_units := units.filter (fun u => u.utype = "single")
  let double_units := units.filter (fun u => u.utype = "double")
  if single_units.all (fun u => is_heavy u.syll && has_acute cfg u.syll) then
    if double_units.all (fun u => has_acute cfg u.syll2) then
      single_units.flatMap (fun u => double_units.map (fun d =>
        [((d.line_n, d.unit_ord), d.syll2.text), ((u.line_n, u.unit_ord), u.syll.text)]))
    else []
  else []

/-! ## Autofix (`compile.py`, `autofix_responsion`) -/

/-- An `<l>` element: its `n` attribute and `<syll>` children. -/
structure XLine where
  n : String := ""
  sylls : List Syll := []
deriving DecidableEq, Repr

/-- A `<strophe>` element: its `responsion` attribute and `<l>` children. -/
structure XStrophe where
  responsion : String := ""
  lines : List XLine := []
deriving DecidableEq, Repr

/-- The `position_to_syll` mapping of `autofix_responsion` (also the
merging loop of `all_contours_line`): adjacent resolution syllables form
one pair entry, every other syllable a singleton entry. -/
def mergeResPositions : List Syll → List (Syll ⊕ (Syll × Syll))
  | [] => []
  | [s] => [Sum.inl s]
  | s :: s2 :: rest =>
    if s.resolution && s2.resolution then
      Sum.inr (s, s2) :: mergeResPositions rest
    else
      Sum.inl s :: mergeResPositions (s2 :: rest)

/-- `syll.set('anceps', 'True')`. -/
def setAnceps (s : Syll) : Syll := { s with anceps := true }

def insertSorted (x : Nat) : List Nat → List Nat
  | [] => [x]
  | y :: r => if x ≤ y then x :: y :: r else y :: insertSorted x r

/-- `sorted(...)` on a list of naturals. -/
def sortNat (l : List Nat) : List Nat := l.foldr insertSorted []

/-- Fixing one line: set `anceps` on the syllable(s) at every problem
position (both members of a resolution pair), leaving others alone. -/
def fix_line_sylls (problem_positions : List Nat) (sylls : List Syll) : List Syll :=
  ((mergeResPositions sylls).enum.map (fun p =>
    if p.1 ∈ problem_positions then
      match p.2 with
      | Sum.inl s => Sum.inl (setAnceps s)
      | Sum.inr (a, b) => Sum.inr (setAnceps a, setAnceps b)
    else p.2)).flatMap (fun p =>
      match p with
      | Sum.inl s => [s]
      | Sum.inr (a, b) => [a, b])

/-- `autofix_responsion` from `compile.py`. The parsed document is
modelled structurally; `lines` is the group of corresponding lines whose
canonical lengths gate the fix, `diff_indices_list` the per-comparison
mismatch indices. `all_diffs` is the union of the non-empty diff lists
(Python builds a `set`; deduplicated here, then sorted). Returns
`(success, document)`; on failure the document is returned unchanged. -/
def autofix_responsion (doc : List XStrophe) (responsion_id : String)
    (line_numbers : List String) (diff_indices_list : List (List Nat))
    (lines : List XLine) : Bool × List XStrophe :=
  let lengths := lines.map (fun l => (canonical_sylls l.sylls).length)
  if lengths.dedup.length > 1 then (false, doc)
  else
    let all_diffs := diff_indices_list.flatten.dedup
    if all_diffs = [] then (false, doc)
    else
      let problem_positions := sortNat all_diffs
      (true, doc.map (fun st =>
        if st.responsion = responsion_id then
          { st with lines := st.lines.map (fun l =>
              if l.n ∈ line_numbers then
                { l with sylls := fix_line_sylls problem_positions l.sylls }
              else l) }
        else st))

/-! ## Word boundaries (`utils/words.py`) -/

/-- Index of the last vowel in `cs` (the scan of `space_after`). -/
def lastVowelIdx (v : Char → Bool) : List Char → Nat → Option Nat → Option Nat
  | [], _, best => best
  | c :: rest, i, best => lastVowelIdx v rest (i + 1) (if v c then some i else best)

/-- `space_after` from `utils/words.py`: true iff the text has a vowel
and the character right after its last vowel is a space. -/
def space_after (cfg : Cfg) (text : List Char) : Bool :=
  match lastVowelIdx cfg.vowel text 0 none with
  | none => false
  | some i => decide (i + 1 < text.length) && decide (text.getD (i + 1) 'x' = ' ')

/-- Index of the first vowel in `cs` (the scan of `space_before`). -/
def firstVowelIdx (v : Char → Bool) : List Char → Nat → Option Nat
  | [], _ => none
  | c :: rest, i => if v c then some i else firstVowelIdx v rest (i + 1)

/-- `space_before` from `utils/words.py`: true iff the text has a vowel,
the first vowel is not initial, and the character before it is a space. -/
def space_before (cfg : Cfg) (text : List Char) : Bool :=
  match firstVowelIdx cfg.vowel text 0 with
  | none => false
  | some i => decide (0 < i) && decide (text.getD (i - 1) 'x' = ' ')

/-! ## Melodic contours (`stats_comp.py`, `get_contours_line`) -/

/-- The `word_end` expression of `get_contours_line`:
`space_after(s) or (s.tail and " " in s.tail) or (next_syll is not None
and space_before(next_syll))`. Reading `next_syll` before any assignment
raises `UnboundLocalError`; the short-circuiting of `or` means the read
only happens when the first two disjuncts are falsy. -/
def word_end_eval (cfg : Cfg) (s : Syll) (next_syll : Option Syll) : Except PyErr Bool :=
  if space_after cfg s.text then .ok true
  else if s.tail.contains ' ' then .ok true
  else
    match next_syll with
    | none => .error .unboundLocal
    | some ns => .ok (space_before cfg ns.text)

/-- One iteration of the `get_contours_line` loop, after `word_end` has
been computed: returns the updated contour list, `pre_accent` flag and
`last_contour`. `rest` is the remainder of the syllable list (used for
the `is_first_res` test on the following syllable). -/
def contours_step (cfg : Cfg) (s : Syll) (rest : List Syll) (word_end : Bool)
    (pre0 : Bool) (lastC0 : String) (acc0 : List String) :
    List String × Bool × String :=
  let is_first_res := match rest with | n :: _ => n.resolution | [] => false
  let pre1 := if is_first_res && word_end then true else pre0
  let enclHit := decide (s.text ≠ []) && cfg.encl s.text && !cfg.procl s.text
    && decide (acc0 ≠ []) && decide (acc0.getLastD "" = "N")
  let acc1 := if enclHit then acc0.dropLast ++ [lastC0] else acc0
  let pre2 := if enclHit then false else pre1
  let hasAcc := decide (s.text ≠ []) && s.text.any cfg.acuteCirc
  let contour1 := if hasAcc then (if pre2 then "DN-A" else "DN")
                  else (if pre2 then "UP" else "DN")
  let pre3 := if hasAcc && pre2 then false else pre2
  let lastC1 := if word_end then contour1 else lastC0
  let contour2 := if word_end then "N" else contour1
  let pre4 := if word_end then true else pre3
  let upg := (decide (s.text ≠ []) && cfg.procl s.text) || s.text.any cfg.graveCh
  let contour3 := if upg then "UP-G" else contour2
  (acc1 ++ [contour3], pre4, lastC1)

/-- The `next_syll = syllables[i + 1]` assignment, guarded by
`i + 1 < len(syllables)`: on the last iteration the local keeps its
previous value. -/
def next_syll_upd (rest : List Syll) (nxt : Option Syll) : Option Syll :=
  match rest with
  | n :: _ => some n
  | [] => nxt

/-- The loop of `get_contours_line`. The `next_syll` local is carried as
an `Option`: it stays at its previous value (initially unassigned) when
`i + 1 < len(syllables)` fails. -/
def contours_go (cfg : Cfg) :
    List Syll → Bool → String → Option Syll → List String → Except PyErr (List String)
  | [], _, _, _, acc => .ok acc
  | s :: rest, pre, lastC, nxt, acc =>
    match word_end_eval cfg s (next_syll_upd rest nxt) with
    | .error e => .error e
    | .ok we =>
      let st := contours_step cfg s rest we pre lastC acc
      contours_go cfg rest st.2.1 st.2.2 (next_syll_upd rest nxt) st.1

/-- `get_contours_line` from `stats_comp.py`: one contour string per
`<syll>` child, or the Python exception the scan raises. -/
def get_contours_line (cfg : Cfg) (sylls : List Syll) : Except PyErr (List String) :=
  contours_go cfg sylls true "" none []

/-! ## Position values and compatibility (`stats_comp.py`) -/

/-- A per-strophe value at one position of `_compatibility_line`: either
a plain contour string or a sublist of two resolved sub-contours. -/
inductive CVal where
  | s (c : String)
  | p (c1 c2 : String)
deriving DecidableEq, Repr

/-- `isinstance(strophe, list)`. -/
def CVal.isPair : CVal → Bool
  | .s _ => false
  | .p _ _ => true

/-- The up-compatible contour set `['UP', 'UP-G', 'N']`. -/
def upSet : List String := ["UP", "UP-G", "N"]

/-- The down-compatible contour set `['DN', 'DN-A', 'N']`. -/
def dnSet : List String := ["DN", "DN-A", "N"]

/-- The `if/elif/else` appending a plain contour to the buckets: checked
against `upSet` first, so `"N"` lands only in the up bucket; an unknown
contour raises `ValueError`. -/
def addPlain (c : String) (ud : List String × List String) :
    Except PyErr (List String × List String) :=
  if c ∈ upSet then .ok (ud.1 ++ [c], ud.2)
  else if c ∈ dnSet then .ok (ud.1, ud.2 ++ [c])
  else .error .valueError

/-- The bucket-building loop of `_compatibility_line` over one position.
`all_resolved` is precomputed over the whole position. For a sublist:
when all strophes resolve, both sub-contours are appended individually;
otherwise the lookup table applies (`N`+`N` to both buckets, two up-types
to up, two down-types to down, a mixed pair is skipped). -/
def bucketsGo (all_resolved : Bool) :
    List CVal → List String × List String → Except PyErr (List String × List String)
  | [], ud => .ok ud
  | .s c :: rest, ud =>
    match addPlain c ud with
    | .error e => .error e
    | .ok ud' => bucketsGo all_resolved rest ud'
  | .p c1 c2 :: rest, ud =>
    if all_resolved then
      match addPlain c1 ud with
      | .error e => .error e
      | .ok ud1 =>
        match addPlain c2 ud1 with
        | .error e => .error e
        | .ok ud2 => bucketsGo all_resolved rest ud2
    else
      let resolved_position := c1 ++ c2
      if c1 = "N" ∧ c2 = "N" then
        bucketsGo all_resolved rest (ud.1 ++ [resolved_position], ud.2 ++ [resolved_position])
      else if c1 ∈ upSet ∧ c2 ∈ upSet then
        bucketsGo all_resolved rest (ud.1 ++ [resolved_position], ud.2)
      else if c1 ∈ dnSet ∧ c2 ∈ dnSet then
        bucketsGo all_resolved rest (ud.1, ud.2 ++ [resolved_position])
      else
        bucketsGo all_resolved rest ud

/-- The up/down buckets of one position of `_compatibility_line`. -/
def bucketsAt (position : List CVal) : Except PyErr (List String × List String) :=
  bucketsGo (position.all CVal.isPair) position ([], [])

/-- One position's compatibility ratio (the `fractional=True` branch):
`Fraction(max(len(up), len(down)), len(position))`; `Fraction(_, 0)`
raises `ZeroDivisionError`. -/
def compat_at_position (position : List CVal) : Except PyErr ℚ :=
  match bucketsAt position with
  | .error e => .error e
  | .ok ud =>
    if position.length = 0 then .error .zeroDivision
    else .ok (((max ud.1.length ud.2.length : ℕ) : ℚ) / (position.length : ℚ))

/-- `all_contours_line` from `stats_comp.py`: require metrical
responsion (else `ValueError`), compute each line's contour list, check
that the resolution-merged syllable counts agree (else `ValueError`),
and return `zip(*contours_per_line)` — the transpose of the *unmerged*
per-syllable contour lists (the merged lists are only used for the count
check, so sublists never actually occur in the returned positions). -/
def all_contours_line (cfg : Cfg) (xml_lines : List XLine) :
    Except PyErr (List (List String)) :=
  if !(metrically_responding_lines_polystrophic (xml_lines.map XLine.sylls)) then
    .error .valueError
  else
    match mapE (fun l => get_contours_line cfg l.sylls) xml_lines with
    | .error e => .error e
    | .ok contours_per_line =>
      let merged_counts := xml_lines.map (fun l => (mergeResPositions l.sylls).length)
      let num_syllables := merged_counts.headD 0
      if merged_counts.any (fun m => m ≠ num_syllables) then .error .valueError
      else .ok (transpose_zip contours_per_line "")

/-- `_compatibility_line` from `stats_comp.py` (`fractional=True`): the
per-position compatibility ratios of a set of responding lines. -/
def compatibility_line (cfg : Cfg) (xml_lines : List XLine) : Except PyErr (List ℚ) :=
  match all_contours_line cfg xml_lines with
  | .error e => .error e
  | .ok position_lists =>
    mapE (fun position => compat_at_position (position.map CVal.s)) position_lists

/-- The `normalize` closure of `compatibility_canticum`:
`min_ratio = Fraction(n//2 + n%2, n)`, `span = 1 - min_ratio`, each score
mapped to `(score - min_ratio) / span`. `Fraction` construction with a
zero denominator and `Fraction` division by an exact zero both raise
`ZeroDivisionError`. -/
def normalize_scores (n : Nat) (line_scores : List ℚ) : Except PyErr (List ℚ) :=
  if n = 0 then .error .zeroDivision
  else
    let min_ratio : ℚ := ((n / 2 + n % 2 : ℕ) : ℚ) / (n : ℚ)
    let span : ℚ := 1 - min_ratio
    mapE (fun score => if span = 0 then .error .zeroDivision
                       else .ok ((score - min_ratio) / span)) line_scores

/-- `compatibility_canticum` from `stats_comp.py` (`fractional=True`):
per-line compatibility ratio lists over the strophes of one responsion
group, then the canticum-level normalization with `n = len(strophes)`. -/
def compatibility_canticum (cfg : Cfg) (strophes : List XStrophe) :
    Except PyErr (List (List ℚ)) :=
  if strophes = [] then .error .valueError
  else
    let num_lines := (strophes.headD {}).lines.length
    match mapE (fun line_pos =>
        compatibility_line cfg (strophes.filterMap (fun st => st.lines.get? line_pos)))
        (List.range num_lines) with
    | .error e => .error e
    | .ok ratio_lists => mapE (normalize_scores strophes.length) ratio_lists

/-! ## Nested ratio statistics (`stats_comp.py`,
`compatibility_ratios_to_stats`) -/

/-- A dynamically-typed nesting of rationals, as fed to
`compatibility_ratios_to_stats` (a `Fraction` or a list of such). -/
inductive NL where
  | leaf (q : ℚ)
  | node (children : List NL)
deriving Repr

mutual

/-- `get_nesting_depth` on a single value: 0 for a non-list. -/
def NL.depth : NL → Nat
  | .leaf _ => 0
  | .node cs => 1 + NL.depthList cs

/-- Maximum child depth (`max(..., default=0)`). -/
def NL.depthList : List NL → Nat
  | [] => 0
  | c :: cs => max c.depth (NL.depthList cs)

end

/-- `merged_list.extend(line)` requires `line` to be a list. -/
def NL.asList : NL → Except PyErr (List NL)
  | .node cs => .ok cs
  | .leaf _ => .error .typeError

/-- `Fraction(x)` on a merged element: only rationals are accepted. -/
def NL.asRat : NL → Except PyErr ℚ
  | .leaf q => .ok q
  | .node _ => .error .typeError

/-- The depth-dispatched flattening of `compatibility_ratios_to_stats`:
depth 1 keeps the list, depths 2–4 flatten one to three levels, any
other depth leaves `merged_list` empty. -/
def flattenByDepth (depth : Nat) (list_in : List NL) : Except PyErr (List NL) :=
  match depth with
  | 1 => .ok list_in
  | 2 =>
    match mapE NL.asList list_in with
    | .error e => .error e
    | .ok rows => .ok rows.flatten
  | 3 =>
    match mapE NL.asList list_in with
    | .error e => .error e
    | .ok cants =>
      match mapE NL.asList cants.flatten with
      | .error e => .error e
      | .ok rows => .ok rows.flatten
  | 4 =>
    match mapE NL.asList list_in with
    | .error e => .error e
    | .ok plays =>
      match mapE NL.asList plays.flatten with
      | .error e => .error e
      | .ok cants =>
        match mapE NL.asList cants.flatten with
        | .error e => .error e
        | .ok rows => .ok rows.flatten
  | _ => .ok []

/-- `statistics.mean`: raises `StatisticsError` on an empty list, and is
exact on rationals. -/
def stats_mean (l : List ℚ) : Except PyErr ℚ :=
  if l = [] then .error .statisticsError
  else .ok (l.sum / (l.length : ℚ))

/-- `compatibility_ratios_to_stats` from `stats_comp.py`: sniff the
nesting depth, flatten to a single list, optionally binarize
(`0 if x != 1 else 1`), cast to exact rationals and take the mean. -/
def compatibility_ratios_to_stats (list_in : List NL) (binary : Bool) :
    Except PyErr ℚ :=
  let depth := 1 + NL.depthList list_in
  match flattenByDepth depth list_in with
  | .error e => .error e
  | .ok merged =>
    let merged2 := if binary then
        merged.map (fun x => match x with
          | .leaf q => NL.leaf (if q ≠ 1 then 0 else 1)
          | .node _ => NL.leaf 0)
      else merged
    match mapE NL.asRat merged2 with
    | .error e => .error e
    | .ok rats => stats_mean rats

/-! ## Contour range and bucket partition lemmas -/

/-- The five contour values `get_contours_line` can emit. -/
def S5 : List String := ["UP", "UP-G", "DN", "DN-A", "N"]

/-- A plain syllable with vowel-free text for the pipeline witnesses. -/
def plainASyll : Syll := { text := ['a'] }

/-- A one-line witness strophe with two plain syllables. -/
def wStrophe1 : XStrophe :=
  { responsion := "r", lines := [{ n := "1", sylls := [plainASyll, plainASyll] }] }

/-- Two two-syllable witness lines for C3. -/
def wLinesC3 : List XLine :=
  [{ n := "1", sylls := [plainASyll, plainASyll] },
   { n := "2", sylls := [plainASyll, plainASyll] }]

/-! ## Theorems -/

theorem mapE_ok_length {f : α → Except PyErr β} {l : List α} {ys : List β}
    (h : mapE f l = .ok ys) : ys.length = l.length := by
  induction l generalizing ys with
  | nil => cases h; rfl
  | cons x xs ih =>
    unfold mapE at h
    cases hx : f x with
    | error e => rw [hx] at h; cases h
    | ok y =>
      rw [hx] at h
      cases hxs : mapE f xs with
      | error e => rw [hxs] at h; cases h
      | ok ys' =>
        rw [hxs] at h
        cases h
        simp [ih hxs]

theorem mapE_ok_mem {f : α → Except PyErr β} {l : List α} {ys : List β}
    (h : mapE f l = .ok ys) : ∀ y ∈ ys, ∃ x ∈ l, f x = .ok y := by
  induction l generalizing ys with
  | nil => cases h; intro y hy; cases hy
  | cons x xs ih =>
    unfold mapE at h
    cases hx : f x with
    | error e => rw [hx] at h; cases h
    | ok y =>
      rw [hx] at h
      cases hxs : mapE f xs with
      | error e => rw [hxs] at h; cases h
      | ok ys' =>
        rw [hxs] at h
        cases h
        intro z hz
        rcases List.mem_cons.1 hz with hz | hz
        · exact ⟨x, List.mem_cons_self x xs, hz ▸ hx⟩
        · obtain ⟨w, hw, hfw⟩ := ih hxs z hz
          exact ⟨w, List.mem_cons_of_mem x hw, hfw⟩

theorem mapE_ok_of_all {f : α → Except PyErr β} {l : List α}
    (h : ∀ x ∈ l, ∃ y, f x = .ok y) : ∃ ys, mapE f l = .ok ys := by
  induction l with
  | nil => exact ⟨[], rfl⟩
  | cons x xs ih =>
    obtain ⟨y, hy⟩ := h x (List.mem_cons_self x xs)
    obtain ⟨ys, hys⟩ := ih (fun z hz => h z (List.mem_cons_of_mem x hz))
    exact ⟨y :: ys, by unfold mapE; rw [hy, hys]⟩

theorem canonical_sylls_cons₂ (s s2 : Syll) (rest : List Syll) :
    canonical_sylls (s :: s2 :: rest) =
      if s.resolution && s2.resolution then "heavy" :: canonical_sylls rest
      else syllableToken s :: canonical_sylls (s2 :: rest) := rfl

/-! ### Helper lemmas about `dedup` as a model of Python `set(...)` size -/

theorem dedup_length_le_one_iff {α : Type} [DecidableEq α] (l : List α) :
    l.dedup.length ≤ 1 ↔ ∀ a ∈ l, ∀ b ∈ l, a = b := by
  constructor
  · intro h a ha b hb
    have ha' : a ∈ l.dedup := (List.mem_dedup).2 ha
    have hb' : b ∈ l.dedup := (List.mem_dedup).2 hb
    match hd : l.dedup with
    | [] => rw [hd] at ha'; cases ha'
    | [x] =>
      rw [hd] at ha' hb'
      simp only [List.mem_singleton] at ha' hb'
      rw [ha', hb']
    | x :: y :: t =>
      rw [hd] at h
      simp at h
  · intro h
    match hd : l.dedup with
    | [] => simp
    | [x] => simp
    | x :: y :: t =>
      exfalso
      have hnd : l.dedup.Nodup := List.nodup_dedup l
      rw [hd] at hnd
      have hx : x ∈ l := (List.mem_dedup).1 (hd ▸ List.mem_cons_self x (y :: t))
      have hy : y ∈ l := (List.mem_dedup).1
        (hd ▸ List.mem_cons_of_mem x (List.mem_cons_self y t))
      have : x = y := h x hx y hy
      rw [List.nodup_cons] at hnd
      exact hnd.1 (this ▸ List.mem_cons_self y t)

theorem dedup_length_eq_one_iff {α : Type} [DecidableEq α] (l : List α) :
    l.dedup.length = 1 ↔ l ≠ [] ∧ ∀ a ∈ l, ∀ b ∈ l, a = b := by
  constructor
  · intro h
    refine ⟨?_, (dedup_length_le_one_iff l).1 (le_of_eq h)⟩
    intro hnil
    rw [hnil] at h
    simp at h
  · rintro ⟨hne, hall⟩
    have h1 : l.dedup.length ≤ 1 := (dedup_length_le_one_iff l).2 hall
    have h0 : l.dedup ≠ [] := by
      intro hd
      exact hne ((List.dedup_eq_nil l).1 hd)
    have : 0 < l.dedup.length := List.length_pos.2 h0
    omega

theorem foldl_min_const {L : Nat} :
    ∀ (rs : List (List α)) (a : Nat), a = L → (∀ x ∈ rs, x.length = L) →
      rs.foldl (fun m x => min m x.length) a = L := by
  intro rs
  induction rs with
  | nil => intro a ha _; exact ha
  | cons r t ih =>
    intro a ha hr
    simp only [List.foldl_cons]
    refine ih _ ?_ (fun x hx => hr x (List.mem_cons_of_mem r hx))
    rw [ha, hr r (List.mem_cons_self r t)]
    exact min_self L

theorem minZipLen_const {L : Nat} {ls : List (List α)}
    (hne : ls ≠ []) (hlen : ∀ l ∈ ls, l.length = L) : minZipLen ls = L := by
  match ls with
  | [] => exact absurd rfl hne
  | l :: rest =>
    unfold minZipLen
    exact foldl_min_const rest l.length (hlen l (List.mem_cons_self l rest))
      (fun x hx => hlen x (List.mem_cons_of_mem l hx))

theorem getD_mem_of_lt {l : List α} {i : Nat} (h : i < l.length) (d : α) :
    l.getD i d ∈ l := by
  rw [List.getD_eq_getElem l d h]
  exact List.getElem_mem h

theorem empty_or_dedup_one_iff (l : List String) :
    (l.isEmpty || decide (l.dedup.length = 1)) = true ↔ ∀ a ∈ l, ∀ b ∈ l, a = b := by
  match l with
  | [] => simp
  | x :: t =>
    simp only [List.isEmpty_cons, Bool.false_or, decide_eq_true_eq]
    rw [dedup_length_eq_one_iff]
    simp

theorem transpose_zip_mem {ls : List (List α)} {row : List α} {d : α}
    (h : row ∈ transpose_zip ls d) :
    ∃ i, i < minZipLen ls ∧ row = ls.map (fun l => l.getD i d) := by
  unfold transpose_zip at h
  obtain ⟨i, hi, hrow⟩ := List.mem_map.1 h
  exact ⟨i, List.mem_range.1 hi, hrow.symm⟩

theorem transpose_zip_row_of_lt {ls : List (List α)} {i : Nat} {d : α}
    (h : i < minZipLen ls) :
    ls.map (fun l => l.getD i d) ∈ transpose_zip ls d := by
  unfold transpose_zip
  exact List.mem_map.2 ⟨i, List.mem_range.2 h, rfl⟩

/-- C4. Canonicalization scans left to right: two adjacent
resolution-flagged syllables collapse into exactly one `"heavy"` token
(so `[resolution, resolution, heavy]` canonicalizes to a 2-token list);
otherwise `anceps` emits `"anceps"`, else `brevis_in_longo` emits
`"heavy"`, else the syllable's own weight, defaulting to `"light"` when
the weight attribute is absent or invalid — resolution pairing over
anceps, anceps over brevis in longo. -/
theorem c4_canonical_rules :
    (∀ (s s2 : Syll) (rest : List Syll), s.resolution = true → s2.resolution = true →
        canonical_sylls (s :: s2 :: rest) = "heavy" :: canonical_sylls rest) ∧
    (∀ (s : Syll) (rest : List Syll),
        (s.resolution = false ∨ rest.head?.map Syll.resolution ≠ some true) →
        canonical_sylls (s :: rest) =
          (if s.anceps then "anceps"
           else if s.brevis_in_longo then "heavy"
           else if s.weight = "heavy" ∨ s.weight = "light" then s.weight else "light")
            :: canonical_sylls rest) ∧
    canonical_sylls [resSyll, resSyll, heavySyll] = ["heavy", "heavy"] := by
  refine ⟨?_, ?_, ?_⟩
  · intro s s2 rest hs hs2
    rw [canonical_sylls_cons₂, hs, hs2]
    rfl
  · intro s rest hnp
    match rest with
    | [] => rfl
    | s2 :: t =>
      have hpair : (s.resolution && s2.resolution) = false := by
        rcases hnp with h | h
        · rw [h]; rfl
        · simp only [List.head?_cons, Option.map_some'] at h
          have : s2.resolution = false := by
            cases hs2 : s2.resolution
            · rfl
            · exact absurd (by rw [hs2]) h
          rw [this, Bool.and_false]
      rw [canonical_sylls_cons₂, hpair]
      rfl
  · rfl

/-- Witness for C4 at concrete syllables. -/
theorem c4_canonical_rules_witness :
    canonical_sylls [resSyll, resSyll, heavySyll] = "heavy" :: canonical_sylls [heavySyll] ∧
    canonical_sylls [ancSyll] =
      (if ancSyll.anceps then "anceps"
       else if ancSyll.brevis_in_longo then "heavy"
       else if ancSyll.weight = "heavy" ∨ ancSyll.weight = "light" then ancSyll.weight
       else "light") :: canonical_sylls [] ∧
    canonical_sylls [resSyll, resSyll, heavySyll] = ["heavy", "heavy"] :=
  ⟨c4_canonical_rules.1 resSyll resSyll [heavySyll] rfl rfl,
   c4_canonical_rules.2.1 ancSyll [] (Or.inl rfl),
   c4_canonical_rules.2.2⟩

theorem bind_map_length (S : List α) (D : List β) (g : α → β → γ) :
    (S.flatMap (fun u => D.map (g u))).length = S.length * D.length := by
  induction S with
  | nil => simp
  | cons s t ih =>
    simp only [List.flatMap_cons, List.length_append, List.length_map, List.length_cons, ih]
    ring

theorem getLastD_concat (a : α) : ∀ (l : List α) (d : α), (l ++ [a]).getLastD d = a := by
  intro l
  induction l with
  | nil => intro d; rfl
  | cons x t ih =>
    intro d
    rw [List.cons_append, List.getLastD_cons]
    exact ih x

theorem step_contour1_mem (hasAcc pre2 : Bool) :
    (if hasAcc then (if pre2 then "DN-A" else "DN")
     else (if pre2 then "UP" else "DN")) ∈ S5 := by
  cases hasAcc <;> cases pre2 <;> decide

theorem step_contour3_mem (upg we hasAcc pre2 : Bool) :
    (if upg then "UP-G"
     else if we then "N"
     else if hasAcc then (if pre2 then "DN-A" else "DN")
     else (if pre2 then "UP" else "DN")) ∈ S5 := by
  cases upg <;> cases we <;> cases hasAcc <;> cases pre2 <;> decide

theorem step_contour3_N_imp_we (upg we hasAcc pre2 : Bool) :
    (if upg then "UP-G"
     else if we then "N"
     else if hasAcc then (if pre2 then "DN-A" else "DN")
     else (if pre2 then "UP" else "DN")) = "N" → we = true := by
  cases upg <;> cases we <;> cases hasAcc <;> cases pre2 <;> decide

theorem contours_step_inv (cfg : Cfg) (s : Syll) (rest : List Syll) (we pre : Bool)
    (lastC : String) (acc : List String)
    (hacc : ∀ c ∈ acc, c ∈ S5)
    (hlast : acc.getLastD "" = "N" → lastC ∈ S5) :
    (∀ c ∈ (contours_step cfg s rest we pre lastC acc).1, c ∈ S5) ∧
    ((contours_step cfg s rest we pre lastC acc).1.getLastD "" = "N" →
      (contours_step cfg s rest we pre lastC acc).2.2 ∈ S5) := by
  unfold contours_step
  dsimp only
  generalize hencl : (decide (s.text ≠ []) && cfg.encl s.text && !cfg.procl s.text
    && decide (acc ≠ []) && decide (acc.getLastD "" = "N")) = enclHit
  generalize (decide (s.text ≠ []) && s.text.any cfg.acuteCirc) = hasAcc
  generalize ((decide (s.text ≠ []) && cfg.procl s.text) || s.text.any cfg.graveCh) = upg
  constructor
  · intro c hc
    rw [List.mem_append] at hc
    rcases hc with hc | hc
    · cases enclHit with
      | false => exact hacc c (by simpa using hc)
      | true =>
        simp only [if_true] at hc
        rw [List.mem_append] at hc
        rcases hc with hc | hc
        · exact hacc c (List.dropLast_subset acc hc)
        · have hN : acc.getLastD "" = "N" := by
            have h5 := hencl
            rw [Bool.and_eq_true] at h5
            exact of_decide_eq_true h5.2
          rw [List.mem_singleton.1 hc]
          exact hlast hN
    · rw [List.mem_singleton.1 hc]
      exact step_contour3_mem upg we hasAcc _
  · rw [getLastD_concat]
    intro hN
    have hwe : we = true := step_contour3_N_imp_we upg we hasAcc _ hN
    rw [hwe]
    simp only [if_true]
    exact step_contour1_mem hasAcc _

theorem contours_go_S5 (cfg : Cfg) :
    ∀ (sylls : List Syll) (pre : Bool) (lastC : String) (nxt : Option Syll)
      (acc res : List String),
      (∀ c ∈ acc, c ∈ S5) → (acc.getLastD "" = "N" → lastC ∈ S5) →
      contours_go cfg sylls pre lastC nxt acc = .ok res →
      ∀ c ∈ res, c ∈ S5 := by
  intro sylls
  induction sylls with
  | nil =>
    intro pre lastC nxt acc res hacc _ h
    cases h
    exact hacc
  | cons s rest ih =>
    intro pre lastC nxt acc res hacc hlast h
    unfold contours_go at h
    cases hwe : word_end_eval cfg s (next_syll_upd rest nxt) with
    | error e => rw [hwe] at h; cases h
    | ok we =>
      rw [hwe] at h
      obtain ⟨hmem, hl⟩ := contours_step_inv cfg s rest we pre lastC acc hacc hlast
      exact ih _ _ _ _ _ hmem hl h

theorem get_contours_line_S5 {cfg : Cfg} {sylls : List Syll} {res : List String}
    (h : get_contours_line cfg sylls = .ok res) : ∀ c ∈ res, c ∈ S5 :=
  contours_go_S5 cfg sylls true "" none [] res
    (by intro c hc; cases hc) (by intro h'; exact absurd h' (by decide)) h

theorem addPlain_S5 {c : String} (h : c ∈ S5) (ud : List String × List String) :
    ∃ ud', addPlain c ud = .ok ud' ∧
      ud'.1.length + ud'.2.length = ud.1.length + ud.2.length + 1 := by
  fin_cases h <;> exact ⟨_, rfl, by simp [addPlain]; omega⟩

theorem bucketsGo_plain (ar : Bool) :
    ∀ (cs : List String) (ud : List String × List String), (∀ c ∈ cs, c ∈ S5) →
      ∃ ud', bucketsGo ar (cs.map CVal.s) ud = .ok ud' ∧
        ud'.1.length + ud'.2.length = ud.1.length + ud.2.length + cs.length := by
  intro cs
  induction cs with
  | nil => intro ud _; exact ⟨ud, rfl, by simp⟩
  | cons c t ih =>
    intro ud h5
    obtain ⟨ud1, hud1, hlen1⟩ := addPlain_S5 (h5 c (List.mem_cons_self c t)) ud
    obtain ⟨ud', hud', hlen'⟩ := ih ud1 (fun x hx => h5 x (List.mem_cons_of_mem c hx))
    refine ⟨ud', ?_, ?_⟩
    · show bucketsGo ar (CVal.s c :: t.map CVal.s) ud = .ok ud'
      unfold bucketsGo
      rw [hud1]
      exact hud'
    · rw [hlen', hlen1, List.length_cons]
      ring

theorem foldl_min_le_init :
    ∀ (rs : List (List α)) (a : Nat), rs.foldl (fun m x => min m x.length) a ≤ a := by
  intro rs
  induction rs with
  | nil => intro a; exact le_refl a
  | cons r t ih =>
    intro a
    simp only [List.foldl_cons]
    exact le_trans (ih (min a r.length)) (min_le_left a r.length)

theorem foldl_min_le_mem :
    ∀ (rs : List (List α)) (a : Nat) (x : List α), x ∈ rs →
      rs.foldl (fun m x => min m x.length) a ≤ x.length := by
  intro rs
  induction rs with
  | nil => intro a x hx; cases hx
  | cons r t ih =>
    intro a x hx
    simp only [List.foldl_cons]
    rcases List.mem_cons.1 hx with hx | hx
    · subst hx
      exact le_trans (foldl_min_le_init t (min a x.length)) (min_le_right a x.length)
    · exact ih (min a r.length) x hx

theorem minZipLen_le {ls : List (List α)} {l : List α} (h : l ∈ ls) :
    minZipLen ls ≤ l.length := by
  match ls with
  | [] => cases h
  | r :: t =>
    unfold minZipLen
    rcases List.mem_cons.1 h with h' | h'
    · subst h'
      exact foldl_min_le_init t l.length
    · exact foldl_min_le_mem t r.length l h'

theorem compat_plain {pos : List String} (h5 : ∀ c ∈ pos, c ∈ S5) (hne : pos ≠ []) :
    ∃ r, compat_at_position (pos.map CVal.s) = .ok r ∧
      ((pos.length / 2 + pos.length % 2 : ℕ) : ℚ) / (pos.length : ℚ) ≤ r ∧ r ≤ 1 := by
  obtain ⟨ud, hud, hlen⟩ := bucketsGo_plain ((pos.map CVal.s).all CVal.isPair) pos ([], []) h5
  have hsum : ud.1.length + ud.2.length = pos.length := by
    rw [hlen]; simp
  have hNpos : 0 < pos.length := List.length_pos.2 hne
  have hmaplen : (pos.map CVal.s).length = pos.length := List.length_map pos CVal.s
  refine ⟨((max ud.1.length ud.2.length : ℕ) : ℚ) / ((pos.map CVal.s).length : ℚ), ?_, ?_, ?_⟩
  · unfold compat_at_position bucketsAt
    rw [hud]
    dsimp only
    rw [if_neg (by rw [hmaplen]; omega)]
  · rw [hmaplen]
    have h2m : pos.length ≤ 2 * max ud.1.length ud.2.length := by
      have h1 := Nat.le_max_left ud.1.length ud.2.length
      have h2 := Nat.le_max_right ud.1.length ud.2.length
      omega
    have hfloor : pos.length / 2 + pos.length % 2 ≤ max ud.1.length ud.2.length := by
      omega
    have hNQ : (0 : ℚ) < (pos.length : ℚ) := by exact_mod_cast hNpos
    exact (div_le_div_iff_of_pos_right hNQ).2 (by exact_mod_cast hfloor)
  · rw [hmaplen]
    have hle : max ud.1.length ud.2.length ≤ pos.length := by
      omega
    have hNQ : (0 : ℚ) < (pos.length : ℚ) := by exact_mod_cast hNpos
    exact (div_le_one hNQ).2 (by exact_mod_cast hle)

/-- C10. `get_contours_line` reads the local `next_syll` in its
`word_end` test; on a line whose only syllable has no space after its
last vowel and no space in its tail, `next_syll` was never assigned and
the function raises `UnboundLocalError` instead of returning contours. -/
theorem c10_unbound_local (cfg : Cfg) (s : Syll)
    (h1 : space_after cfg s.text = false)
    (h2 : ' ' ∉ s.tail) :
    get_contours_line cfg [s] = .error .unboundLocal := by
  unfold get_contours_line contours_go
  simp [word_end_eval, next_syll_upd, h1, h2]

/-- Witness for C10: a one-syllable line with vowel-free text. -/
theorem c10_unbound_local_witness :
    space_after cfgAcuteA ['a'] = false ∧
    ' ' ∉ ([] : List Char) ∧
    get_contours_line cfgAcuteA [{ text := ['a'] }] = .error .unboundLocal :=
  ⟨by decide, by decide, c10_unbound_local cfgAcuteA { text := ['a'] } (by decide) (by decide)⟩

/-- C1. Failing-input evaluation: at a position whose three strophes
carry contours `DN`, `DN`, `N`, the code's `elif` chain appends `N` only
to the up bucket, so the buckets are `(["N"], ["DN", "DN"])` and the
ratio is `2/3` — not `1`, although all three values lie in the
down-compatible set `{DN, DN-A, N}` (the claim and the source docstring
put `N` in both buckets, which would give `3/3`). -/
theorem c1_n_only_up_bucket :
    bucketsAt [CVal.s "DN", CVal.s "DN", CVal.s "N"] = .ok (["N"], ["DN", "DN"]) ∧
    compat_at_position [CVal.s "DN", CVal.s "DN", CVal.s "N"] = .ok (2 / 3 : ℚ) ∧
    (2 / 3 : ℚ) ≠ 1 := by
  refine ⟨rfl, ?_, by norm_num⟩
  show Except.ok (((max 1 2 : ℕ) : ℚ) / ((3 : ℕ) : ℚ)) = Except.ok (2 / 3 : ℚ)
  norm_num

/-- C2. Counterexample: with two strophes — one an irreducibly ambiguous
resolved pair `(UP, DN-A)`, one a plain `UP` — the skipped strophe leaves
the buckets at `(["UP"], [])` but the ratio divides by `len(position) = 2`
(the total strophe count), giving `1/2`, not the `1/1` the claim's
"excluded from the denominator" would give. -/
theorem c2_skip_counterexample :
    bucketsAt [CVal.p "UP" "DN-A", CVal.s "UP"] = .ok (["UP"], []) ∧
    compat_at_position [CVal.p "UP" "DN-A", CVal.s "UP"] = .ok (1 / 2 : ℚ) ∧
    (1 / 2 : ℚ) ≠ 1 := by
  refine ⟨rfl, ?_, by norm_num⟩
  show Except.ok (((max 1 0 : ℕ) : ℚ) / ((2 : ℕ) : ℚ)) = Except.ok (1 / 2 : ℚ)
  norm_num

/-- C2 (amended). A strophe whose resolved pair mixes an up-type and a
down-type sub-contour is excluded from both buckets (numerator), but the
denominator of the position's ratio remains the total strophe count
`len(position)`, not the number of non-skipped strophes. -/
theorem c2_skip_numerator_only (position : List CVal) (c1 c2 : String)
    (hnp : ∃ v ∈ position, v.isPair = false)
    (hmix1 : ¬(c1 = "N" ∧ c2 = "N"))
    (hmix2 : ¬(c1 ∈ upSet ∧ c2 ∈ upSet))
    (hmix3 : ¬(c1 ∈ dnSet ∧ c2 ∈ dnSet)) :
    bucketsAt (CVal.p c1 c2 :: position) = bucketsAt position ∧
    ∀ u d, bucketsAt position = .ok (u, d) →
      compat_at_position (CVal.p c1 c2 :: position) =
        .ok (((max u.length d.length : ℕ) : ℚ) / ((position.length + 1 : ℕ) : ℚ)) := by
  obtain ⟨v, hv, hvp⟩ := hnp
  have hall : position.all CVal.isPair = false := by
    cases h : position.all CVal.isPair with
    | false => rfl
    | true =>
      have := List.all_eq_true.1 h v hv
      rw [hvp] at this
      cases this
  have hall2 : (CVal.p c1 c2 :: position).all CVal.isPair = false := by
    rw [List.all_cons, hall, Bool.and_false]
  have hskip : bucketsGo false (CVal.p c1 c2 :: position) ([], []) =
      bucketsGo false position ([], []) := by
    show (if false = true then _ else _) = _
    rw [if_neg (by simp)]
    rw [if_neg hmix1, if_neg hmix2, if_neg hmix3]
  have hbuckets : bucketsAt (CVal.p c1 c2 :: position) = bucketsAt position := by
    unfold bucketsAt
    rw [hall, hall2]
    exact hskip
  refine ⟨hbuckets, ?_⟩
  intro u d hud
  unfold compat_at_position
  rw [hbuckets, hud]
  dsimp only
  rw [if_neg (by simp)]
  simp

/-- Witness for C2's amended statement at the counterexample input. -/
theorem c2_skip_numerator_only_witness :
    bucketsAt [CVal.p "UP" "DN-A", CVal.s "UP"] = bucketsAt [CVal.s "UP"] ∧
    ∀ u d, bucketsAt [CVal.s "UP"] = .ok (u, d) →
      compat_at_position [CVal.p "UP" "DN-A", CVal.s "UP"] =
        .ok (((max u.length d.length : ℕ) : ℚ) / ((([CVal.s "UP"] : List CVal).length + 1 : ℕ) : ℚ)) :=
  c2_skip_numerator_only [CVal.s "UP"] "UP" "DN-A"
    ⟨CVal.s "UP", by decide, rfl⟩ (by decide) (by decide) (by decide)

/-! ## Exact-mean and single-strophe lemmas -/

theorem depthList_leaves (qs : List ℚ) : NL.depthList (qs.map NL.leaf) = 0 := by
  induction qs with
  | nil => rfl
  | cons q t ih =>
    show max (NL.leaf q).depth (NL.depthList (t.map NL.leaf)) = 0
    rw [ih]
    rfl

theorem mapE_asRat_leaves (qs : List ℚ) : mapE NL.asRat (qs.map NL.leaf) = .ok qs := by
  induction qs with
  | nil => rfl
  | cons q t ih =>
    show mapE NL.asRat (NL.leaf q :: t.map NL.leaf) = .ok (q :: t)
    unfold mapE
    rw [show NL.asRat (NL.leaf q) = .ok q from rfl, ih]

theorem sum_all_ones {qs : List ℚ} (h : ∀ q ∈ qs, q = 1) :
    qs.sum = (qs.length : ℚ) := by
  induction qs with
  | nil => simp
  | cons q t ih =>
    rw [List.sum_cons, h q (List.mem_cons_self q t),
      ih (fun x hx => h x (List.mem_cons_of_mem q hx)), List.length_cons]
    push_cast
    ring

/-- C8. On a non-empty flat list of exact rational ratios all equal to
`Fraction(1, 1)`, `compatibility_ratios_to_stats` returns exactly
`Fraction(1, 1)`: the depth sniff yields 1, the list is kept as is, and
the mean is computed in exact rational arithmetic. -/
theorem c8_exact_mean (qs : List ℚ) (hne : qs ≠ []) (hall : ∀ q ∈ qs, q = 1) :
    compatibility_ratios_to_stats (qs.map NL.leaf) false = .ok 1 := by
  unfold compatibility_ratios_to_stats
  simp only [depthList_leaves, Nat.add_zero]
  dsimp only [flattenByDepth]
  rw [if_neg (by simp : ¬(false = true))]
  rw [mapE_asRat_leaves]
  dsimp only
  unfold stats_mean
  rw [if_neg hne, sum_all_ones hall]
  have hlen : (qs.length : ℚ) ≠ 0 := by
    have : qs.length ≠ 0 := fun h0 => hne (List.length_eq_zero.1 h0)
    exact_mod_cast this
  rw [div_self hlen]

/-- Witness for C8: the mean of `[Fraction(1,1), Fraction(1,1)]`. -/
theorem c8_exact_mean_witness :
    compatibility_ratios_to_stats [NL.leaf 1, NL.leaf 1] false = .ok 1 :=
  c8_exact_mean [1, 1] (by decide) (by
    intro q hq
    rcases List.mem_cons.1 hq with rfl | hq
    · rfl
    · rcases List.mem_cons.1 hq with rfl | hq
      · rfl
      · cases hq)

theorem normalize_scores_one_err (l : List ℚ) (hne : l ≠ []) :
    normalize_scores 1 l = .error .zeroDivision := by
  unfold normalize_scores
  rw [if_neg one_ne_zero]
  have hspan : (1 : ℚ) - ((1 / 2 + 1 % 2 : ℕ) : ℚ) / ((1 : ℕ) : ℚ) = 0 := by norm_num
  match l with
  | x :: xs =>
    unfold mapE
    rw [if_pos hspan]

theorem mapE_normalize_one_err (rl : List (List ℚ)) (h : ∃ l ∈ rl, l ≠ []) :
    mapE (normalize_scores 1) rl = .error .zeroDivision := by
  induction rl with
  | nil =>
    obtain ⟨l, hl, _⟩ := h
    cases hl
  | cons l0 rest ih =>
    by_cases h0 : l0 = []
    · subst h0
      have hok : normalize_scores 1 ([] : List ℚ) = .ok [] := by
        unfold normalize_scores
        rw [if_neg one_ne_zero]
        rfl
      have hrest : ∃ l ∈ rest, l ≠ [] := by
        obtain ⟨l, hl, hlne⟩ := h
        rcases List.mem_cons.1 hl with rfl | hl'
        · exact absurd rfl hlne
        · exact ⟨l, hl', hlne⟩
      unfold mapE
      rw [hok, ih hrest]
    · unfold mapE
      rw [normalize_scores_one_err l0 h0]

/-- C9. For a responsion group with exactly one strophe whose scoring
produces at least one non-empty per-line ratio list, the canticum-level
normalization has `min_ratio = Fraction(1, 1)` (so `span = 0`) and
`compatibility_canticum` raises `ZeroDivisionError` instead of returning
scores. -/
theorem c9_single_strophe_zero_div (cfg : Cfg) (st : XStrophe)
    (ratio_lists : List (List ℚ))
    (hok : mapE (fun line_pos => compatibility_line cfg
        ([st].filterMap (fun s => s.lines.get? line_pos))) (List.range st.lines.length)
      = .ok ratio_lists)
    (hne : ∃ l ∈ ratio_lists, l ≠ []) :
    (((1 / 2 + 1 % 2 : ℕ) : ℚ) / ((1 : ℕ) : ℚ) = 1) ∧
    compatibility_canticum cfg [st] = .error .zeroDivision := by
  refine ⟨by norm_num, ?_⟩
  unfold compatibility_canticum
  rw [if_neg (by simp : ¬([st] = []))]
  dsimp only [List.headD_cons, List.length_cons, List.length_nil]
  rw [hok]
  exact mapE_normalize_one_err ratio_lists hne

/-- Witness for C9: a single strophe with one two-syllable line. -/
theorem c9_single_strophe_zero_div_witness :
    (((1 / 2 + 1 % 2 : ℕ) : ℚ) / ((1 : ℕ) : ℚ) = 1) ∧
    compatibility_canticum cfgAcuteA [wStrophe1] = .error .zeroDivision :=
  c9_single_strophe_zero_div cfgAcuteA wStrophe1 [[1, 1]]
    (by
      have h : mapE (fun line_pos => compatibility_line cfgAcuteA
          ([wStrophe1].filterMap (fun s => s.lines.get? line_pos)))
          (List.range wStrophe1.lines.length) =
          .ok [[((1 : ℕ) : ℚ) / ((1 : ℕ) : ℚ), ((1 : ℕ) : ℚ) / ((1 : ℕ) : ℚ)]] := rfl
      rw [h]
      norm_num)
    ⟨[1, 1], List.mem_cons_self _ _, by simp⟩

/-! ## Pipeline compatibility bounds -/

theorem all_contours_ok {cfg : Cfg} {xml_lines : List XLine} {plists : List (List String)}
    (h : all_contours_line cfg xml_lines = .ok plists) :
    ∃ cpl, mapE (fun l => get_contours_line cfg l.sylls) xml_lines = .ok cpl ∧
      plists = transpose_zip cpl "" := by
  unfold all_contours_line at h
  cases hresp : metrically_responding_lines_polystrophic (xml_lines.map XLine.sylls) with
  | false => rw [hresp] at h; simp at h
  | true =>
    rw [hresp] at h
    simp only [Bool.not_true, Bool.false_eq_true, if_false] at h
    cases hmap : mapE (fun l => get_contours_line cfg l.sylls) xml_lines with
    | error e => rw [hmap] at h; simp at h
    | ok cpl =>
      rw [hmap] at h
      dsimp only at h
      cases hany : (xml_lines.map (fun l => (mergeResPositions l.sylls).length)).any
          (fun m => m ≠ (xml_lines.map (fun l => (mergeResPositions l.sylls).length)).headD 0) with
      | true => rw [hany] at h; simp at h
      | false =>
        rw [hany] at h
        simp only [Bool.false_eq_true, if_false, Except.ok.injEq] at h
        exact ⟨cpl, rfl, h.symm⟩

/-- C3. For `N ≥ 2` metrically responding lines, every per-position
compatibility ratio computed by `_compatibility_line` lies in
`[ceil(N/2)/N, 1]`, and the canticum-level normalization succeeds and
maps every score into `[0, 1]`. -/
theorem c3_compat_bounds (cfg : Cfg) (xml_lines : List XLine) (ratios : List ℚ)
    (hN : 2 ≤ xml_lines.length)
    (hok : compatibility_line cfg xml_lines = .ok ratios) :
    (∀ r ∈ ratios,
      ((xml_lines.length / 2 + xml_lines.length % 2 : ℕ) : ℚ) / (xml_lines.length : ℚ) ≤ r
        ∧ r ≤ 1) ∧
    ∃ out, normalize_scores xml_lines.length ratios = .ok out ∧
      ∀ x ∈ out, 0 ≤ x ∧ x ≤ 1 := by
  unfold compatibility_line at hok
  cases hac : all_contours_line cfg xml_lines with
  | error e => rw [hac] at hok; cases hok
  | ok plists =>
    rw [hac] at hok
    obtain ⟨cpl, hcpl, rfl⟩ := all_contours_ok hac
    have hcplS5 : ∀ cl ∈ cpl, ∀ c ∈ cl, c ∈ S5 := by
      intro cl hcl
      obtain ⟨l, _, hgl⟩ := mapE_ok_mem hcpl cl hcl
      exact get_contours_line_S5 hgl
    have hcpllen : cpl.length = xml_lines.length := mapE_ok_length hcpl
    have hposfacts : ∀ pos ∈ transpose_zip cpl "",
        pos.length = xml_lines.length ∧ ∀ c ∈ pos, c ∈ S5 := by
      intro pos hpos
      obtain ⟨i, hi, rfl⟩ := transpose_zip_mem hpos
      refine ⟨by rw [List.length_map, hcpllen], ?_⟩
      intro c hc
      obtain ⟨cl, hcl, rfl⟩ := List.mem_map.1 hc
      have hilen : i < cl.length := lt_of_lt_of_le hi (minZipLen_le hcl)
      exact hcplS5 cl hcl _ (getD_mem_of_lt hilen "")
    have hbounds : ∀ r ∈ ratios,
        ((xml_lines.length / 2 + xml_lines.length % 2 : ℕ) : ℚ) / (xml_lines.length : ℚ) ≤ r
          ∧ r ≤ 1 := by
      intro r hr
      obtain ⟨pos, hpos, hcomp⟩ := mapE_ok_mem hok r hr
      obtain ⟨hlen, h5⟩ := hposfacts pos hpos
      have hne : pos ≠ [] := by
        intro h0
        rw [h0] at hlen
        simp at hlen
        omega
      obtain ⟨r', hr', hb1, hb2⟩ := compat_plain h5 hne
      rw [hcomp] at hr'
      have : r = r' := Except.ok.inj hr'
      subst this
      rw [hlen] at hb1
      exact ⟨hb1, hb2⟩
    refine ⟨hbounds, ?_⟩
    have hN0 : xml_lines.length ≠ 0 := by omega
    have hNQ : (0 : ℚ) < (xml_lines.length : ℚ) := by
      exact_mod_cast Nat.pos_of_ne_zero hN0
    have hm_lt : xml_lines.length / 2 + xml_lines.length % 2 < xml_lines.length := by
      omega
    have hm1 : ((xml_lines.length / 2 + xml_lines.length % 2 : ℕ) : ℚ) /
        (xml_lines.length : ℚ) < 1 := by
      rw [div_lt_one hNQ]
      exact_mod_cast hm_lt
    have hspan_pos : (0 : ℚ) < 1 - ((xml_lines.length / 2 + xml_lines.length % 2 : ℕ) : ℚ) /
        (xml_lines.length : ℚ) := by linarith
    have hspan_ne : (1 : ℚ) - ((xml_lines.length / 2 + xml_lines.length % 2 : ℕ) : ℚ) /
        (xml_lines.length : ℚ) ≠ 0 := ne_of_gt hspan_pos
    unfold normalize_scores
    rw [if_neg hN0]
    obtain ⟨out, hout⟩ := mapE_ok_of_all (f := fun score =>
        if (1 : ℚ) - ((xml_lines.length / 2 + xml_lines.length % 2 : ℕ) : ℚ) /
            (xml_lines.length : ℚ) = 0 then Except.error PyErr.zeroDivision
        else Except.ok ((score - ((xml_lines.length / 2 + xml_lines.length % 2 : ℕ) : ℚ) /
            (xml_lines.length : ℚ)) /
          ((1 : ℚ) - ((xml_lines.length / 2 + xml_lines.length % 2 : ℕ) : ℚ) /
            (xml_lines.length : ℚ))))
      (l := ratios) (fun x _ => ⟨_, if_neg hspan_ne⟩)
    refine ⟨out, hout, ?_⟩
    intro x hx
    obtain ⟨r, hrmem, hfr⟩ := mapE_ok_mem hout x hx
    rw [if_neg hspan_ne] at hfr
    have hx_eq : x = (r - ((xml_lines.length / 2 + xml_lines.length % 2 : ℕ) : ℚ) /
        (xml_lines.length : ℚ)) /
      ((1 : ℚ) - ((xml_lines.length / 2 + xml_lines.length % 2 : ℕ) : ℚ) /
        (xml_lines.length : ℚ)) := (Except.ok.inj hfr).symm
    obtain ⟨hb1, hb2⟩ := hbounds r hrmem
    constructor
    · rw [hx_eq]
      apply div_nonneg
      · linarith
      · linarith
    · rw [hx_eq]
      rw [div_le_one hspan_pos]
      linarith

/-- Witness for C3: two identical two-syllable lines; both ratios are 1
and normalization keeps them in `[0, 1]`. -/
theorem c3_compat_bounds_witness :
    (∀ r ∈ ([1, 1] : List ℚ),
      ((wLinesC3.length / 2 + wLinesC3.length % 2 : ℕ) : ℚ) / (wLinesC3.length : ℚ) ≤ r
        ∧ r ≤ 1) ∧
    ∃ out, normalize_scores wLinesC3.length [1, 1] = .ok out ∧
      ∀ x ∈ out, 0 ≤ x ∧ x ≤ 1 :=
  c3_compat_bounds cfgAcuteA wLinesC3 [1, 1] (by decide)
    (by
      have h : compatibility_line cfgAcuteA wLinesC3 =
          .ok [((2 : ℕ) : ℚ) / ((2 : ℕ) : ℚ), ((2 : ℕ) : ℚ) / ((2 : ℕ) : ℚ)] := rfl
      rw [h]
      norm_num)

/-- C6. At a mixed single/double ordinal (both kinds present), the group
responds — i.e. at least one match is recorded — iff every single unit's
syllable is heavy with an acute and every double unit's second
sub-syllable has an acute; and when it responds, exactly one record per
single×double pair is emitted (the full cross product), each mapping the
double's key to its second sub-syllable's text and the single's key to
its syllable's text. -/
theorem c6_mixed_single_double (cfg : Cfg) (units : List AUnit)
    (hs : units.filter (fun u => u.utype = "single") ≠ [])
    (hd : units.filter (fun u => u.utype = "double") ≠ []) :
    (do_mixed_single_double_polystrophic cfg units ≠ [] ↔
      (∀ u ∈ units.filter (fun u => u.utype = "single"),
          is_heavy u.syll = true ∧ has_acute cfg u.syll = true) ∧
      (∀ u ∈ units.filter (fun u => u.utype = "double"), has_acute cfg u.syll2 = true)) ∧
    (((∀ u ∈ units.filter (fun u => u.utype = "single"),
          is_heavy u.syll = true ∧ has_acute cfg u.syll = true) ∧
      (∀ u ∈ units.filter (fun u => u.utype = "double"), has_acute cfg u.syll2 = true)) →
      do_mixed_single_double_polystrophic cfg units =
        (units.filter (fun u => u.utype = "single")).flatMap (fun u =>
          (units.filter (fun u => u.utype = "double")).map (fun d =>
            [((d.line_n, d.unit_ord), d.syll2.text), ((u.line_n, u.unit_ord), u.syll.text)])) ∧
      (do_mixed_single_double_polystrophic cfg units).length =
        (units.filter (fun u => u.utype = "single")).length *
          (units.filter (fun u => u.utype = "double")).length) := by
  set S := units.filter (fun u => u.utype = "single") with hS
  set D := units.filter (fun u => u.utype = "double") with hD
  have hdef : do_mixed_single_double_polystrophic cfg units =
      if S.all (fun u => is_heavy u.syll && has_acute cfg u.syll) then
        if D.all (fun u => has_acute cfg u.syll2) then
          S.flatMap (fun u => D.map (fun d =>
            [((d.line_n, d.unit_ord), d.syll2.text), ((u.line_n, u.unit_ord), u.syll.text)]))
        else []
      else [] := rfl
  cases h1 : S.all (fun u => is_heavy u.syll && has_acute cfg u.syll) with
  | false =>
    have hfail : ¬ (∀ u ∈ S, is_heavy u.syll = true ∧ has_acute cfg u.syll = true) := by
      intro hcontra
      have : S.all (fun u => is_heavy u.syll && has_acute cfg u.syll) = true := by
        rw [List.all_eq_true]
        intro u hu
        have := hcontra u hu
        rw [Bool.and_eq_true]
        exact this
      rw [h1] at this
      cases this
    constructor
    · rw [hdef, h1]
      simp only [if_false, Bool.false_eq_true]
      constructor
      · intro hcontra; exact absurd rfl hcontra
      · rintro ⟨ha, _⟩; exact absurd ha hfail
    · rintro ⟨ha, _⟩; exact absurd ha hfail
  | true =>
    cases h2 : D.all (fun u => has_acute cfg u.syll2) with
    | false =>
      have hfail : ¬ (∀ u ∈ D, has_acute cfg u.syll2 = true) := by
        intro hcontra
        have : D.all (fun u => has_acute cfg u.syll2) = true :=
          List.all_eq_true.2 hcontra
        rw [h2] at this
        cases this
      constructor
      · rw [hdef, h1, h2]
        simp only [if_true, if_false, Bool.false_eq_true]
        constructor
        · intro hcontra; exact absurd rfl hcontra
        · rintro ⟨_, hb⟩; exact absurd hb hfail
      · rintro ⟨_, hb⟩; exact absurd hb hfail
    | true =>
      have hres : do_mixed_single_double_polystrophic cfg units =
          S.flatMap (fun u => D.map (fun d =>
            [((d.line_n, d.unit_ord), d.syll2.text),
             ((u.line_n, u.unit_ord), u.syll.text)])) := by
        rw [hdef, h1, h2]
        simp
      have hlen : (do_mixed_single_double_polystrophic cfg units).length =
          S.length * D.length := by
        rw [hres, bind_map_length]
      constructor
      · constructor
        · intro _
          refine ⟨?_, ?_⟩
          · intro u hu
            have := List.all_eq_true.1 h1 u hu
            rw [Bool.and_eq_true] at this
            exact this
          · intro u hu
            exact List.all_eq_true.1 h2 u hu
        · intro _
          intro hcontra
          have h0 : (do_mixed_single_double_polystrophic cfg units).length = 0 := by
            rw [hcontra]; rfl
          rw [hlen] at h0
          rcases Nat.mul_eq_zero.1 h0 with h | h
          · exact hs (List.length_eq_zero.1 h)
          · exact hd (List.length_eq_zero.1 h)
      · intro _
        exact ⟨hres, hlen⟩

/-- Witness for C6: one single (heavy, acute) and one double (acute on
second sub-syllable) respond with exactly one recorded pair. -/
theorem c6_mixed_single_double_witness :
    (do_mixed_single_double_polystrophic cfgAcuteA
        [{ utype := "single", line_n := "1", unit_ord := 3, syll := accHeavySyll },
         { utype := "double", line_n := "2", unit_ord := 3, syll1 := resSyll,
           syll2 := accHeavySyll }] ≠ [] ↔
      (∀ u ∈ ([{ utype := "single", line_n := "1", unit_ord := 3, syll := accHeavySyll },
               { utype := "double", line_n := "2", unit_ord := 3, syll1 := resSyll,
                 syll2 := accHeavySyll }] : List AUnit).filter (fun u => u.utype = "single"),
          is_heavy u.syll = true ∧ has_acute cfgAcuteA u.syll = true) ∧
      (∀ u ∈ ([{ utype := "single", line_n := "1", unit_ord := 3, syll := accHeavySyll },
               { utype := "double", line_n := "2", unit_ord := 3, syll1 := resSyll,
                 syll2 := accHeavySyll }] : List AUnit).filter (fun u => u.utype = "double"),
          has_acute cfgAcuteA u.syll2 = true)) ∧
    (((∀ u ∈ ([{ utype := "single", line_n := "1", unit_ord := 3, syll := accHeavySyll },
               { utype := "double", line_n := "2", unit_ord := 3, syll1 := resSyll,
                 syll2 := accHeavySyll }] : List AUnit).filter (fun u => u.utype = "single"),
          is_heavy u.syll = true ∧ has_acute cfgAcuteA u.syll = true) ∧
      (∀ u ∈ ([{ utype := "single", line_n := "1", unit_ord := 3, syll := accHeavySyll },
               { utype := "double", line_n := "2", unit_ord := 3, syll1 := resSyll,
                 syll2 := accHeavySyll }] : List AUnit).filter (fun u => u.utype = "double"),
          has_acute cfgAcuteA u.syll2 = true)) →
      do_mixed_single_double_polystrophic cfgAcuteA
          [{ utype := "single", line_n := "1", unit_ord := 3, syll := accHeavySyll },
           { utype := "double", line_n := "2", unit_ord := 3, syll1 := resSyll,
             syll2 := accHeavySyll }] =
        (([{ utype := "single", line_n := "1", unit_ord := 3, syll := accHeavySyll },
           { utype := "double", line_n := "2", unit_ord := 3, syll1 := resSyll,
             syll2 := accHeavySyll }] : List AUnit).filter
            (fun u => u.utype = "single")).flatMap (fun u =>
          (([{ utype := "single", line_n := "1", unit_ord := 3, syll := accHeavySyll },
             { utype := "double", line_n := "2", unit_ord := 3, syll1 := resSyll,
               syll2 := accHeavySyll }] : List AUnit).filter
              (fun u => u.utype = "double")).map (fun d =>
            [((d.line_n, d.unit_ord), d.syll2.text), ((u.line_n, u.unit_ord), u.syll.text)])) ∧
      (do_mixed_single_double_polystrophic cfgAcuteA
          [{ utype := "single", line_n := "1", unit_ord := 3, syll := accHeavySyll },
           { utype := "double", line_n := "2", unit_ord := 3, syll1 := resSyll,
             syll2 := accHeavySyll }]).length =
        (([{ utype := "single", line_n := "1", unit_ord := 3, syll := accHeavySyll },
           { utype := "double", line_n := "2", unit_ord := 3, syll1 := resSyll,
             syll2 := accHeavySyll }] : List AUnit).filter
            (fun u => u.utype = "single")).length *
          (([{ utype := "single", line_n := "1", unit_ord := 3, syll := accHeavySyll },
             { utype := "double", line_n := "2", unit_ord := 3, syll1 := resSyll,
               syll2 := accHeavySyll }] : List AUnit).filter
              (fun u => u.utype = "double")).length) :=
  c6_mixed_single_double cfgAcuteA
    [{ utype := "single", line_n := "1", unit_ord := 3, syll := accHeavySyll },
     { utype := "double", line_n := "2", unit_ord := 3, syll1 := resSyll,
       syll2 := accHeavySyll }]
    (by decide) (by decide)

/-- C7. Autofix is never applied when the group's lines have differing
canonical lengths or when no mismatching position exists: in both cases
`autofix_responsion` reports failure and returns the document unchanged. -/
theorem c7_autofix_unfixable (doc : List XStrophe) (responsion_id : String)
    (line_numbers : List String) (diff_indices_list : List (List Nat))
    (lines : List XLine)
    (h : (∃ l₁ ∈ lines, ∃ l₂ ∈ lines,
            (canonical_sylls l₁.sylls).length ≠ (canonical_sylls l₂.sylls).length) ∨
         diff_indices_list.flatten = []) :
    autofix_responsion doc responsion_id line_numbers diff_indices_list lines =
      (false, doc) := by
  by_cases hgt : (lines.map (fun l => (canonical_sylls l.sylls).length)).dedup.length > 1
  · unfold autofix_responsion
    rw [if_pos hgt]
  · have hle : (lines.map (fun l => (canonical_sylls l.sylls).length)).dedup.length ≤ 1 := by
      omega
    have heq := (dedup_length_le_one_iff _).1 hle
    have hjoin : diff_indices_list.flatten = [] := by
      rcases h with ⟨l₁, hl₁, l₂, hl₂, hne⟩ | h
      · exact absurd
          (heq _ (List.mem_map.2 ⟨l₁, hl₁, rfl⟩) _ (List.mem_map.2 ⟨l₂, hl₂, rfl⟩)) hne
      · exact h
    unfold autofix_responsion
    rw [if_neg hgt]
    simp only [hjoin, List.dedup_nil, if_pos]

/-- Witness for C7: two lines with canonical lengths 1 and 2 make the
autofix report failure and leave the document untouched. -/
theorem c7_autofix_unfixable_witness :
    autofix_responsion [] "x" ["1"] [[0]]
        [{ n := "1", sylls := [heavySyll] }, { n := "2", sylls := [heavySyll, lightSyll] }] =
      (false, []) :=
  c7_autofix_unfixable [] "x" ["1"] [[0]]
    [{ n := "1", sylls := [heavySyll] }, { n := "2", sylls := [heavySyll, lightSyll] }]
    (Or.inl ⟨{ n := "1", sylls := [heavySyll] }, by decide,
      { n := "2", sylls := [heavySyll, lightSyll] }, by decide, by decide⟩)

/-- C5. For lines whose canonical sequences all have equal length `L`,
the polystrophic responsion check returns `true` iff every position's
non-anceps tokens agree pairwise; anceps tokens never disqualify a
position and an all-anceps position trivially passes. -/
theorem c5_responsion_iff (strophes : List (List Syll)) (L : Nat)
    (h2 : 2 ≤ strophes.length)
    (hlen : ∀ l ∈ strophes, (canonical_sylls l).length = L) :
    metrically_responding_lines_polystrophic strophes = true ↔
      ∀ i < L, ∀ l₁ ∈ strophes, ∀ l₂ ∈ strophes,
        (canonical_sylls l₁).getD i "" ≠ "anceps" →
        (canonical_sylls l₂).getD i "" ≠ "anceps" →
        (canonical_sylls l₁).getD i "" = (canonical_sylls l₂).getD i "" := by
  have hne : strophes ≠ [] := by
    intro h
    rw [h] at h2
    simp at h2
  have hcne : strophes.map canonical_sylls ≠ [] := by
    simp [hne]
  have hclen : ∀ c ∈ strophes.map canonical_sylls, c.length = L := by
    intro c hc
    obtain ⟨l, hl, rfl⟩ := List.mem_map.1 hc
    exact hlen l hl
  have hmin : minZipLen (strophes.map canonical_sylls) = L := minZipLen_const hcne hclen
  have hcheck1 :
      decide (((strophes.map canonical_sylls).map List.length).dedup.length = 1) = true := by
    rw [decide_eq_true_eq, dedup_length_eq_one_iff]
    constructor
    · simp [hne]
    · intro a ha b hb
      obtain ⟨c, hc, rfl⟩ := List.mem_map.1 ha
      obtain ⟨c', hc', rfl⟩ := List.mem_map.1 hb
      rw [hclen c hc, hclen c' hc']
  unfold metrically_responding_lines_polystrophic
  simp only [hcheck1, Bool.true_and, List.all_eq_true]
  constructor
  · intro hall i hi l₁ hl₁ l₂ hl₂ hna₁ hna₂
    have hrow : (strophes.map canonical_sylls).map (fun c => c.getD i "") ∈
        transpose_zip (strophes.map canonical_sylls) "" :=
      transpose_zip_row_of_lt (by rw [hmin]; exact hi)
    have hpred := hall _ hrow
    rw [empty_or_dedup_one_iff] at hpred
    have hm₁ : (canonical_sylls l₁).getD i "" ∈
        ((strophes.map canonical_sylls).map (fun c => c.getD i "")).filter
          (fun s => s ≠ "anceps") := by
      rw [List.mem_filter]
      refine ⟨List.mem_map.2 ⟨canonical_sylls l₁, List.mem_map.2 ⟨l₁, hl₁, rfl⟩, rfl⟩, ?_⟩
      simpa using hna₁
    have hm₂ : (canonical_sylls l₂).getD i "" ∈
        ((strophes.map canonical_sylls).map (fun c => c.getD i "")).filter
          (fun s => s ≠ "anceps") := by
      rw [List.mem_filter]
      refine ⟨List.mem_map.2 ⟨canonical_sylls l₂, List.mem_map.2 ⟨l₂, hl₂, rfl⟩, rfl⟩, ?_⟩
      simpa using hna₂
    exact hpred _ hm₁ _ hm₂
  · intro hpos row hrow
    obtain ⟨i, hi, rfl⟩ := transpose_zip_mem hrow
    rw [hmin] at hi
    rw [empty_or_dedup_one_iff]
    intro a ha b hb
    rw [List.mem_filter] at ha hb
    obtain ⟨c₁, hc₁, rfl⟩ := List.mem_map.1 ha.1
    obtain ⟨c₂, hc₂, rfl⟩ := List.mem_map.1 hb.1
    obtain ⟨l₁, hl₁, rfl⟩ := List.mem_map.1 hc₁
    obtain ⟨l₂, hl₂, rfl⟩ := List.mem_map.1 hc₂
    exact hpos i hi l₁ hl₁ l₂ hl₂ (by simpa using ha.2) (by simpa using hb.2)

/-- Witness for C5: a heavy/anceps pair of two-token lines responds, and
the characterization instantiates at those lines. -/
theorem c5_responsion_iff_witness :
    metrically_responding_lines_polystrophic [[heavySyll, lightSyll], [ancSyll, lightSyll]] = true ↔
      ∀ i < 2, ∀ l₁ ∈ [[heavySyll, lightSyll], [ancSyll, lightSyll]],
        ∀ l₂ ∈ [[heavySyll, lightSyll], [ancSyll, lightSyll]],
        (canonical_sylls l₁).getD i "" ≠ "anceps" →
        (canonical_sylls l₂).getD i "" ≠ "anceps" →
        (canonical_sylls l₁).getD i "" = (canonical_sylls l₂).getD i "" := by
  refine c5_responsion_iff [[heavySyll, lightSyll], [ancSyll, lightSyll]] 2 (by decide) ?_
  intro l hl
  rcases List.mem_cons.1 hl with h | h
  · rw [h]; rfl
  · rcases List.mem_cons.1 h with h' | h'
    · rw [h']; rfl
    · cases h'

end Responsio
